import Mathlib

/-!
Shallow embedding of the content-ingestion and chunking pipeline of
`local_rag_v2` (files `src/guide/content_manager.py` and
`src/guide/vector_store.py`), together with proofs of the specified
properties of the hasher, the two chunkers, the identity assigner and
the directory-ingestion orchestrator.

Python strings are modelled as `List Char`; Python `int` values that the
code keeps non-negative (chunk sizes, overlaps, indices) are modelled as
`Nat`, with the one place Python computes a possibly negative
intermediate (`end - chunk_overlap`) handled by the fact that
`max(end - overlap, start + 1)` agrees with the truncated-subtraction
form because `start + 1 > 0`.
-/

/-- Python `str.split()` / `str.strip()` whitespace class restricted to the
ASCII whitespace characters (space, tab, newline, carriage return,
vertical tab, form feed). -/
def isPySpace (c : Char) : Bool :=
  c == ' ' || c == '\t' || c == '\n' || c == '\r' || c == '\x0b' || c == '\x0c'

/-- Python `content.strip()`: remove leading and trailing whitespace. -/
def pyStrip (l : List Char) : List Char :=
  (l.dropWhile isPySpace).rdropWhile isPySpace

/-- Python `content.split()` (no separator argument): split on runs of
whitespace, never producing empty words. -/
def splitWs (l : List Char) : List (List Char) :=
  match l with
  | [] => []
  | c :: cs =>
    if isPySpace c then splitWs cs
    else (c :: cs.takeWhile (fun x => !isPySpace x)) ::
      splitWs (cs.dropWhile (fun x => !isPySpace x))
termination_by l.length
decreasing_by
  · simp only [List.length_cons]; omega
  · simp only [List.length_cons]
    have h : (cs.dropWhile (fun x => !isPySpace x)).length ≤ cs.length :=
      (List.dropWhile_sublist _).length_le
    omega

/-- Python `" ".join(words)`. -/
def joinSp : List (List Char) → List Char
  | [] => []
  | [w] => w
  | w :: ws => w ++ ' ' :: joinSp ws

/-- The updated start index of both chunking loops:
`start = max(end - chunk_overlap, start + 1)` ("always advance at least
1 position"). -/
def nextStart (start e cov : Nat) : Nat :=
  max (start + 1) (e - cov)

/-- The end index of the word-mode chunker:
`end = min(start + self.chunk_size, len(words))`
(`ContentManager._chunk_content`, line 198). -/
def wordEnd (words : List (List Char)) (csize start : Nat) : Nat :=
  min (start + csize) words.length

/-- One chunk of the word-mode chunker:
`chunk = " ".join(words[start:end])`. -/
def wordChunk (words : List (List Char)) (start e : Nat) : List Char :=
  joinSp ((words.drop start).take (e - start))

/-- The `while start < len(words)` loop of `ContentManager._chunk_content`
(lines 197-207): emit `" ".join(words[start:end])`, break once
`end >= len(words)`, otherwise advance `start` to
`max(end - chunk_overlap, start + 1)`. -/
def chunkLoop (words : List (List Char)) (csize cov : Nat) (start : Nat) :
    List (List Char) :=
  if start < words.length then
    wordChunk words start (wordEnd words csize start) ::
      (if words.length ≤ wordEnd words csize start then []
       else chunkLoop words csize cov (nextStart start (wordEnd words csize start) cov))
  else []
termination_by words.length - start
decreasing_by
  simp only [nextStart]
  omega

/-- `ContentManager._chunk_content` (lines 190-209): word-based chunking
with overlap; `return chunks if chunks else [content]`. -/
def chunkContent (csize cov : Nat) (content : List Char) : List (List Char) :=
  if chunkLoop (splitWs content) csize cov 0 = [] then [content]
  else chunkLoop (splitWs content) csize cov 0

/-! ### SHA-256 (`hashlib.sha256`) and UTF-8 encoding (`str.encode`)

A full executable model of SHA-256 over byte lists, so that the hash
functions of the repository (`calculate_content_hash`,
`Document._calculate_hash`, `DocumentChunk.create_chunk_id`) are embedded
as the real digest computations and concrete hash values can be checked
by kernel evaluation. -/

/-- 2^32, the word modulus of SHA-256. -/
def M32 : Nat := 4294967296

/-- Right rotation of a 32-bit word. -/
def rotr32 (n x : Nat) : Nat := ((x >>> n) ||| (x <<< (32 - n))) % M32

def bsig0 (x : Nat) : Nat := rotr32 2 x ^^^ rotr32 13 x ^^^ rotr32 22 x

def bsig1 (x : Nat) : Nat := rotr32 6 x ^^^ rotr32 11 x ^^^ rotr32 25 x

def ssig0 (x : Nat) : Nat := rotr32 7 x ^^^ rotr32 18 x ^^^ (x >>> 3)

def ssig1 (x : Nat) : Nat := rotr32 17 x ^^^ rotr32 19 x ^^^ (x >>> 10)

/-- The 64 SHA-256 round constants. -/
def shaK : List Nat :=
  [1116352408, 1899447441, 3049323471, 3921009573, 961987163, 1508970993,
   2453635748, 2870763221, 3624381080, 310598401, 607225278, 1426881987,
   1925078388, 2162078206, 2614888103, 3248222580, 3835390401, 4022224774,
   264347078, 604807628, 770255983, 1249150122, 1555081692, 1996064986,
   2554220882, 2821834349, 2952996808, 3210313671, 3336571891, 3584528711,
   113926993, 338241895, 666307205, 773529912, 1294757372, 1396182291,
   1695183700, 1986661051, 2177026350, 2456956037, 2730485921, 2820302411,
   3259730800, 3345764771, 3516065817, 3600352804, 4094571909, 275423344,
   430227734, 506948616, 659060556, 883997877, 958139571, 1322822218,
   1537002063, 1747873779, 1955562222, 2024104815, 2227730452, 2361852424,
   2428436474, 2756734187, 3204031479, 3329325298]

/-- The SHA-256 initial hash value. -/
def shaInitH : List Nat :=
  [1779033703, 3144134277, 1013904242, 2773480762,
   1359893119, 2600822924, 528734635, 1541459225]

/-- Big-endian byte encoding of `v` on `n` bytes. -/
def beBytes : Nat → Nat → List Nat
  | 0, _ => []
  | n + 1, v => beBytes n (v / 256) ++ [v % 256]

/-- SHA-256 message padding: append `0x80`, zeros, and the 64-bit
big-endian bit length, reaching a multiple of 64 bytes. -/
def sha256Pad (msg : List Nat) : List Nat :=
  msg ++ 0x80 :: List.replicate ((119 - msg.length % 64) % 64) 0
    ++ beBytes 8 (8 * msg.length)

/-- Big-endian 32-bit words from a byte list. -/
def bytesToWords : List Nat → List Nat
  | b0 :: b1 :: b2 :: b3 :: rest =>
    (((b0 * 256 + b1) * 256 + b2) * 256 + b3) :: bytesToWords rest
  | _ => []

/-- Extend 16 message-schedule words to 64. -/
def shaSchedule (w16 : List Nat) : List Nat :=
  (List.range 48).foldl
    (fun w _ =>
      w ++ [(ssig1 (w.getD (w.length - 2) 0) + w.getD (w.length - 7) 0 +
             ssig0 (w.getD (w.length - 15) 0) + w.getD (w.length - 16) 0) % M32])
    w16

/-- One SHA-256 round on the state `[a,b,c,d,e,f,g,h]`. -/
def shaRound (st : List Nat) (kw : Nat × Nat) : List Nat :=
  match st with
  | [a, b, c, d, e, f, g, h] =>
    ((h + bsig1 e + ((e &&& f) ^^^ ((4294967295 - e) &&& g)) + kw.1 + kw.2) % M32 +
       (bsig0 a + ((a &&& b) ^^^ (a &&& c) ^^^ (b &&& c))) % M32) % M32 ::
      a :: b :: c ::
      (d + (h + bsig1 e + ((e &&& f) ^^^ ((4294967295 - e) &&& g)) + kw.1 + kw.2) % M32) % M32 ::
      e :: f :: [g]
  | _ => st

/-- Compress one 64-byte block into the hash state. -/
def shaCompress (H block : List Nat) : List Nat :=
  (H.zip ((shaK.zip (shaSchedule (bytesToWords block))).foldl shaRound H)).map
    (fun p => (p.1 + p.2) % M32)

/-- Fold the compression function over all 64-byte blocks (the fuel is an
upper bound on the number of blocks; the padded message length is used). -/
def sha256Go : Nat → List Nat → List Nat → List Nat
  | 0, H, _ => H
  | fuel + 1, H, l =>
    if l.isEmpty then H
    else sha256Go fuel (shaCompress H (l.take 64)) (l.drop 64)

/-- SHA-256 digest (32 bytes) of a byte list. -/
def sha256Bytes (msg : List Nat) : List Nat :=
  ((sha256Go (sha256Pad msg).length shaInitH (sha256Pad msg)).map (beBytes 4)).flatten

/-- Lowercase hexadecimal digit. -/
def hexDigit (n : Nat) : Char :=
  if n < 10 then Char.ofNat (48 + n) else Char.ofNat (87 + n)

/-- Lowercase hexadecimal rendering of a byte list (`.hexdigest()`). -/
def bytesToHex (l : List Nat) : List Char :=
  (l.map (fun b => [hexDigit (b / 16), hexDigit (b % 16)])).flatten

/-- `hashlib.sha256(bytes).hexdigest()`. -/
def sha256Hex (msg : List Nat) : List Char := bytesToHex (sha256Bytes msg)

/-- UTF-8 encoding of one unicode scalar value (`str.encode("utf-8")`,
per character). -/
def utf8Char (c : Char) : List Nat :=
  let n := c.toNat
  if n < 0x80 then [n]
  else if n < 0x800 then [0xC0 + n / 64, 0x80 + n % 64]
  else if n < 0x10000 then
    [0xE0 + n / 4096, 0x80 + n / 64 % 64, 0x80 + n % 64]
  else
    [0xF0 + n / 262144, 0x80 + n / 4096 % 64, 0x80 + n / 64 % 64, 0x80 + n % 64]

/-- UTF-8 encoding of a string (`str.encode("utf-8")`). -/
def utf8Encode (l : List Char) : List Nat := (l.map utf8Char).flatten

/-- Decoder for one UTF-8 scalar, used to prove `utf8Encode` injective. -/
def utf8DecodeOne : List Nat → Option (Nat × List Nat)
  | [] => none
  | b :: bs =>
    if b < 0x80 then some (b, bs)
    else if b < 0xF0 then
      if b < 0xE0 then
        match bs with
        | b1 :: bs' => some ((b - 0xC0) * 64 + (b1 - 0x80), bs')
        | [] => none
      else
        match bs with
        | b1 :: b2 :: bs' =>
          some ((b - 0xE0) * 4096 + (b1 - 0x80) * 64 + (b2 - 0x80), bs')
        | _ => none
    else
      match bs with
      | b1 :: b2 :: b3 :: bs' =>
        some ((b - 0xF0) * 262144 + (b1 - 0x80) * 4096 + (b2 - 0x80) * 64 +
          (b3 - 0x80), bs')
      | _ => none

/-! ### The repository's hash and identity functions -/

/-- `ContentManager.calculate_content_hash` (lines 211-220), identical to
the `content_hash` computed in `_extract_metadata` (line 174):
`hashlib.sha256(content.encode("utf-8")).hexdigest()` — note: the content
is NOT stripped. -/
def calculate_content_hash (content : List Char) : List Char :=
  sha256Hex (utf8Encode content)

/-- `Document._calculate_hash` = `DocumentChunk._calculate_hash`
(`vector_store.py` lines 35-38 and 86-89):
`normalized = content.strip(); sha256(normalized.encode("utf-8")).hexdigest()`. -/
def docCalculateHash (content : List Char) : List Char :=
  sha256Hex (utf8Encode (pyStrip content))

/-- The byte string fed to SHA-256 by `Document._calculate_hash` /
`DocumentChunk._calculate_hash`. -/
def docHashInput (content : List Char) : List Nat :=
  utf8Encode (pyStrip content)

/-- Python `f"{n:04d}"` for `n ≥ 0`: decimal digits left-padded with `'0'`
to at least four characters. -/
def pyFormat04d (n : Nat) : List Char :=
  List.replicate (4 - (toString n).toList.length) '0' ++ (toString n).toList

/-- `DocumentChunk.create_chunk_id` (`vector_store.py` lines 126-133):
`f"chunk_{sha256(document_source.encode()).hexdigest()[:8]}_{chunk_index:04d}_{content_hash[:8]}"`. -/
def create_chunk_id (document_source : List Char) (chunk_index : Nat)
    (content_hash : List Char) : List Char :=
  "chunk_".toList ++ (sha256Hex (utf8Encode document_source)).take 8 ++
    '_' :: pyFormat04d chunk_index ++ '_' :: content_hash.take 8

/-- Zero-padding of a digit string to a given width, following the spec's
words for `zero_pad(chunk_index, 4)`. -/
def zeroPad (w : Nat) (s : List Char) : List Char :=
  List.replicate (w - s.length) '0' ++ s

/-- The identity-assigner contract as the spec words it (§4.4):
`"chunk_" + hex(sha256(document_source))[:8] + "_" + zero_pad(chunk_index, 4)
+ "_" + content_hash[:8]`. -/
def specChunkId (document_source : List Char) (chunk_index : Nat)
    (content_hash : List Char) : List Char :=
  "chunk_".toList ++ (bytesToHex (sha256Bytes (utf8Encode document_source))).take 8 ++
    "_".toList ++ zeroPad 4 (toString chunk_index).toList ++
    "_".toList ++ content_hash.take 8

/-! ### `VectorStore._chunk_document`: character-count chunking with
word-boundary snapping (`vector_store.py` lines 413-473) -/

/-- A produced chunk record (the fields of `DocumentChunk` that
`_chunk_document` computes; `created_at` and the metadata dict carry no
invariant-relevant data). -/
structure Chunk where
  chunk_id : List Char
  chunk_index : Nat
  content : List Char
  chunk_size : Nat
  chunk_overlap : Nat
deriving DecidableEq, Repr

/-- Python `content.rfind(" ", a, b)`: the greatest index `i` with
`a ≤ i < b` and `content[i] == ' '`, else `-1`. -/
def rfindSp (content : List Char) (a b : Nat) : Int :=
  match ((List.range b).filter
      (fun i => decide (a ≤ i) && (content.getD i 'x' == ' '))).getLast? with
  | some i => (i : Int)
  | none => -1

/-- The end position of one character-mode chunk
(lines 430-437): `end = min(start + chunk_size, len(content))`; if `end`
falls strictly inside the content, look for a space in
`[max(start, end - 50), end)` and snap to it when it exceeds `start`. -/
def chunkDocEnd (content : List Char) (csize start : Nat) : Nat :=
  if min (start + csize) content.length < content.length then
    if (start : Int) < rfindSp content (max start (min (start + csize) content.length - 50))
        (min (start + csize) content.length) then
      (rfindSp content (max start (min (start + csize) content.length - 50))
        (min (start + csize) content.length)).toNat
    else min (start + csize) content.length
  else min (start + csize) content.length

/-- `chunk_content = content[start:end].strip()` (line 440). -/
def chunkPiece (content : List Char) (start e : Nat) : List Char :=
  pyStrip ((content.drop start).take (e - start))

/-- The chunk record built at lines 443-461. -/
def mkChunk (source : List Char) (ci : Nat) (cc : List Char) (cov : Nat) : Chunk :=
  { chunk_id := create_chunk_id source ci (sha256Hex (utf8Encode cc))
    chunk_index := ci
    content := cc
    chunk_size := cc.length
    chunk_overlap := if 0 < ci then cov else 0 }

/-- The `while start < len(content)` loop of `VectorStore._chunk_document`
(lines 428-470): strip each slice, emit only non-empty chunks (and only
then increment `chunk_index`), break when `end >= len(content)`, else
advance `start = max(start + 1, end - chunk_overlap)`. -/
def chunkDocLoop (content source : List Char) (csize cov : Nat)
    (start ci : Nat) : List Chunk :=
  if start < content.length then
    if chunkPiece content start (chunkDocEnd content csize start) = [] then
      if content.length ≤ chunkDocEnd content csize start then []
      else chunkDocLoop content source csize cov
        (nextStart start (chunkDocEnd content csize start) cov) ci
    else
      mkChunk source ci (chunkPiece content start (chunkDocEnd content csize start)) cov ::
        (if content.length ≤ chunkDocEnd content csize start then []
         else chunkDocLoop content source csize cov
           (nextStart start (chunkDocEnd content csize start) cov) (ci + 1))
  else []
termination_by content.length - start
decreasing_by
  · simp only [nextStart]; omega
  · simp only [nextStart]; omega

/-- `VectorStore._chunk_document` on a document with the given source and
content, under configuration `chunk_size = csize`, `chunk_overlap = cov`. -/
def chunkDocument (source content : List Char) (csize cov : Nat) : List Chunk :=
  chunkDocLoop content source csize cov 0 0

/-! ### Directory ingestion (`ContentManager.ingest_file` /
`ContentManager.ingest_directory`, lines 30-103)

The filesystem is modelled as the list of paths `Path.glob` enumerates,
each carrying its file-ness, suffix, and read outcome. -/

/-- One filesystem entry seen by the directory walk. -/
structure FSFile where
  name : List Char
  isFile : Bool
  suffix : List Char
  content : Except Unit (List Char)

/-- Python `str.lower()` restricted to ASCII case folding. -/
def pyLower (l : List Char) : List Char := l.map Char.toLower

/-- The extension allow-list check of line 98:
`file_path.suffix.lower() in {".txt", ".md", ".html", ".htm"}`. -/
def qualifies (f : FSFile) : Bool :=
  f.isFile &&
    (pyLower f.suffix ∈ [".txt".toList, ".md".toList, ".html".toList, ".htm".toList])

/-- `ContentManager.ingest_file` (lines 30-71) for a file that the walk
enumerated (so it exists): read it, chunk it, and return one document per
chunk; any failure is re-raised as
`ValueError(f"Error processing {file_path}: ...")`, modelled as
`Except.error` carrying the failing path. -/
def ingest_file (csize cov : Nat) (f : FSFile) :
    Except (List Char) (List (List Char × List Char)) :=
  match f.content with
  | .error _ => .error f.name
  | .ok text => .ok ((chunkContent csize cov text).map (fun ch => (f.name, ch)))

/-- The `for file_path in path.glob(pattern)` loop of
`ContentManager.ingest_directory` (lines 97-100): each qualifying file is
ingested with a plain call — there is no `try/except` around it, so an
exception propagates out of the loop. -/
def ingestDirLoop (csize cov : Nat) (files : List FSFile)
    (acc : List (List Char × List Char)) :
    Except (List Char) (List (List Char × List Char)) :=
  match files with
  | [] => .ok acc
  | f :: fs =>
    if qualifies f then
      match ingest_file csize cov f with
      | .error e => .error e
      | .ok docs => ingestDirLoop csize cov fs (acc ++ docs)
    else ingestDirLoop csize cov fs acc

/-- `ContentManager.ingest_directory` (lines 73-103) over the enumerated
entries of an existing directory. -/
def ingest_directory (csize cov : Nat) (files : List FSFile) :
    Except (List Char) (List (List Char × List Char)) :=
  ingestDirLoop csize cov files []

/-! ### Helper lemmas: stripping and splitting -/

theorem dropWhile_rdropWhile_dropWhile (p : Char → Bool) (l : List Char) :
    List.dropWhile p (List.rdropWhile p (List.dropWhile p l)) =
      List.rdropWhile p (List.dropWhile p l) := by
  set m := List.dropWhile p l with hm
  have hmm : List.dropWhile p m = m := by rw [hm]; exact List.dropWhile_idempotent p l
  have hpre := List.rdropWhile_prefix p m
  obtain ⟨t, ht⟩ := hpre
  cases hr : List.rdropWhile p m with
  | nil => simp
  | cons x r =>
    rw [hr] at ht
    by_cases hpx : p x = true
    · exfalso
      have h1 : List.dropWhile p m = List.dropWhile p (r ++ t) := by
        rw [← ht]
        simp [List.dropWhile_cons, hpx]
      have h2 := congrArg List.length (hmm.symm.trans h1)
      have h3 : (List.dropWhile p (r ++ t)).length ≤ (r ++ t).length :=
        (List.dropWhile_sublist _).length_le
      rw [← ht] at h2
      simp at h2 h3
      omega
    · simp [List.dropWhile_cons, hpx]

/-- `content.strip()` is idempotent. -/
theorem pyStrip_idem (l : List Char) : pyStrip (pyStrip l) = pyStrip l := by
  unfold pyStrip
  rw [dropWhile_rdropWhile_dropWhile, List.rdropWhile_idempotent]

theorem splitWs_nil : splitWs [] = [] := by
  rw [splitWs]

theorem splitWs_cons_space {c : Char} (hc : isPySpace c = true) (l : List Char) :
    splitWs (c :: l) = splitWs l := by
  rw [splitWs]
  simp [hc]

/-- Every word produced by `content.split()` is non-empty and contains no
whitespace character. -/
theorem mem_splitWs (l : List Char) :
    ∀ w ∈ splitWs l, w ≠ [] ∧ ∀ c ∈ w, isPySpace c = false := by
  induction l using splitWs.induct with
  | case1 => simp [splitWs_nil]
  | case2 c cs hc ih =>
    rw [splitWs_cons_space hc]
    exact ih
  | case3 c cs hc ih =>
    rw [splitWs]
    simp only [Bool.not_eq_true] at hc
    simp only [hc, Bool.false_eq_true, if_false, List.mem_cons]
    intro w hw
    rcases hw with hw | hw
    · subst hw
      refine ⟨by simp, ?_⟩
      intro d hd
      rcases List.mem_cons.mp hd with hd | hd
      · subst hd; exact hc
      · have := List.mem_takeWhile_imp hd
        simpa using this
    · exact ih w hw

theorem takeWhile_all_append {p : Char → Bool} (w : List Char)
    (hw : ∀ c ∈ w, p c = true) {x : Char} (hx : p x = false) (l : List Char) :
    (w ++ x :: l).takeWhile p = w := by
  induction w with
  | nil => simp [List.takeWhile_cons, hx]
  | cons a w' ih =>
    simp only [List.cons_append, List.takeWhile_cons, hw a (by simp), if_true]
    rw [ih (fun c hc => hw c (by simp [hc]))]

theorem dropWhile_all_append {p : Char → Bool} (w : List Char)
    (hw : ∀ c ∈ w, p c = true) {x : Char} (hx : p x = false) (l : List Char) :
    (w ++ x :: l).dropWhile p = x :: l := by
  induction w with
  | nil => simp [List.dropWhile_cons, hx]
  | cons a w' ih =>
    simp only [List.cons_append, List.dropWhile_cons, hw a (by simp), if_true]
    exact ih (fun c hc => hw c (by simp [hc]))

theorem takeWhile_all {p : Char → Bool} (w : List Char)
    (hw : ∀ c ∈ w, p c = true) : w.takeWhile p = w := by
  induction w with
  | nil => simp
  | cons a w' ih =>
    simp only [List.takeWhile_cons, hw a (by simp), if_true]
    rw [ih (fun c hc => hw c (by simp [hc]))]

theorem splitWs_word (w : List Char) (hne : w ≠ [])
    (hw : ∀ c ∈ w, isPySpace c = false) : splitWs w = [w] := by
  cases w with
  | nil => exact absurd rfl hne
  | cons c cs =>
    rw [splitWs]
    have hc : isPySpace c = false := hw c (by simp)
    simp only [hc, Bool.false_eq_true, if_false]
    have h1 : cs.takeWhile (fun x => !isPySpace x) = cs :=
      takeWhile_all cs (fun d hd => by simp [hw d (by simp [hd])])
    have h2 : cs.dropWhile (fun x => !isPySpace x) = [] :=
      List.dropWhile_eq_nil_iff.mpr (fun d hd => by simp [hw d (by simp [hd])])
    rw [h1, h2, splitWs_nil]

theorem splitWs_word_append (w : List Char) (hne : w ≠ [])
    (hw : ∀ c ∈ w, isPySpace c = false) (l : List Char) :
    splitWs (w ++ ' ' :: l) = w :: splitWs l := by
  cases w with
  | nil => exact absurd rfl hne
  | cons c cs =>
    rw [List.cons_append, splitWs]
    have hc : isPySpace c = false := hw c (by simp)
    simp only [hc, Bool.false_eq_true, if_false]
    have hcs : ∀ d ∈ cs, (!isPySpace d) = true :=
      fun d hd => by simp [hw d (by simp [hd])]
    have hsp : (!isPySpace ' ') = false := by decide
    rw [takeWhile_all_append cs hcs hsp, dropWhile_all_append cs hcs hsp,
      splitWs_cons_space (by decide)]

/-- `" ".join(words).split()` recovers `words` when every word is
non-empty and whitespace-free. -/
theorem splitWs_joinSp (ws : List (List Char))
    (hws : ∀ w ∈ ws, w ≠ [] ∧ ∀ c ∈ w, isPySpace c = false) :
    splitWs (joinSp ws) = ws := by
  induction ws with
  | nil => simp [joinSp, splitWs_nil]
  | cons w ws' ih =>
    cases ws' with
    | nil =>
      show splitWs (joinSp [w]) = [w]
      rw [joinSp]
      exact splitWs_word w (hws w (by simp)).1 (hws w (by simp)).2
    | cons v t =>
      show splitWs (joinSp (w :: v :: t)) = w :: v :: t
      rw [joinSp, splitWs_word_append w (hws w (by simp)).1 (hws w (by simp)).2,
        ih (fun u hu => hws u (by simp [hu]))]
      simp

/-! ### Helper lemmas: the word-mode chunking loop -/

theorem chunkLoop_neg (words : List (List Char)) (csize cov start : Nat)
    (h : ¬ start < words.length) : chunkLoop words csize cov start = [] := by
  rw [chunkLoop]
  simp [h]

theorem chunkLoop_ne_nil (words : List (List Char)) (csize cov start : Nat)
    (h : start < words.length) : chunkLoop words csize cov start ≠ [] := by
  rw [chunkLoop]
  simp [h]

/-- The loop emits at most one chunk per remaining word position: `start`
strictly increases on each iteration. -/
theorem chunkLoop_length (words : List (List Char)) (csize cov : Nat) :
    ∀ start, (chunkLoop words csize cov start).length ≤ words.length - start := by
  intro start
  induction start using chunkLoop.induct words csize cov with
  | case1 x hx ih =>
    rw [chunkLoop]
    simp only [hx, if_true]
    by_cases hb : words.length ≤ wordEnd words csize x
    · simp [hb]; omega
    · simp only [hb, if_false, List.length_cons]
      have hns : x + 1 ≤ nextStart x (wordEnd words csize x) cov := by
        simp [nextStart]
      omega
  | case2 x hx =>
    rw [chunkLoop_neg words csize cov x hx]
    simp

/-- With `chunk_size = 0` every emitted chunk is the empty join and the
loop walks the word list one position at a time. -/
theorem chunkLoop_zero_size (words : List (List Char)) (cov : Nat) :
    ∀ start, chunkLoop words 0 cov start =
      List.replicate (words.length - start) [] := by
  intro start
  induction start using chunkLoop.induct words 0 cov with
  | case1 x hx ih =>
    rw [chunkLoop]
    have he : wordEnd words 0 x = x := by simp [wordEnd]; omega
    have hchunk : wordChunk words x x = [] := by
      simp [wordChunk, joinSp]
    have hb : ¬ words.length ≤ x := by omega
    have hns : nextStart x x cov = x + 1 := by simp [nextStart]; omega
    rw [he] at ih
    simp only [hx, if_true, he, hb, if_false, hchunk, hns]
    rw [hns] at ih
    rw [ih]
    have : words.length - x = (words.length - (x + 1)) + 1 := by omega
    rw [this, List.replicate_succ]
  | case2 x hx =>
    rw [chunkLoop_neg words 0 cov x hx]
    have : words.length - x = 0 := by omega
    rw [this]
    simp

/-- Coverage: every word at position `i ≥ start` of the word list occurs
(as a word) in some chunk the loop emits, whenever `chunk_size ≥ 1`. -/
theorem chunkLoop_covers (words : List (List Char)) (csize cov : Nat)
    (hcs : 1 ≤ csize)
    (hw : ∀ w ∈ words, w ≠ [] ∧ ∀ c ∈ w, isPySpace c = false) :
    ∀ start, ∀ i w, words[i]? = some w → start ≤ i →
      ∃ c ∈ chunkLoop words csize cov start, w ∈ splitWs c := by
  intro start
  induction start using chunkLoop.induct words csize cov with
  | case1 x hx ih =>
    intro i w hi hxi
    have hilen : i < words.length := by
      by_contra hcon
      rw [List.getElem?_eq_none (by omega)] at hi
      exact Option.noConfusion hi
    by_cases hie : i < wordEnd words csize x
    · refine ⟨wordChunk words x (wordEnd words csize x), ?_, ?_⟩
      · rw [chunkLoop]
        simp [hx]
      · have hslice : w ∈ (words.drop x).take (wordEnd words csize x - x) := by
          rw [List.mem_iff_getElem?]
          refine ⟨i - x, ?_⟩
          rw [List.getElem?_take, if_pos (by omega), List.getElem?_drop]
          have hxi' : x + (i - x) = i := by omega
          rw [hxi']
          exact hi
        have hwfslice : ∀ u ∈ (words.drop x).take (wordEnd words csize x - x),
            u ≠ [] ∧ ∀ c ∈ u, isPySpace c = false := by
          intro u hu
          exact hw u (List.Sublist.mem hu
            ((List.take_sublist _ _).trans (List.drop_sublist _ _)))
        rw [wordChunk, splitWs_joinSp _ hwfslice]
        exact hslice
    · have hen : wordEnd words csize x < words.length := by omega
      have hstep : nextStart x (wordEnd words csize x) cov ≤ i := by
        have h1 : x + 1 ≤ wordEnd words csize x := by
          simp only [wordEnd]
          omega
        simp only [nextStart]
        omega
      obtain ⟨c, hc, hwc⟩ := ih i w hi hstep
      refine ⟨c, ?_, hwc⟩
      rw [chunkLoop]
      simp only [hx, if_true]
      rw [if_neg (by omega)]
      exact List.mem_cons_of_mem _ hc
  | case2 x hx =>
    intro i w hi hxi
    exfalso
    have hilen : i < words.length := by
      by_contra hcon
      rw [List.getElem?_eq_none (by omega)] at hi
      exact Option.noConfusion hi
    omega

/-! ### Helper lemmas: the character-mode chunking loop -/

/-- Every chunk `VectorStore._chunk_document` emits is already stripped
and non-empty, and the emitted `chunk_index` values are consecutive
starting at the running index. -/
theorem chunkDocLoop_spec (content source : List Char) (csize cov : Nat) :
    ∀ start ci,
      (∀ c ∈ chunkDocLoop content source csize cov start ci,
        pyStrip c.content = c.content ∧ c.content ≠ []) ∧
      (chunkDocLoop content source csize cov start ci).map Chunk.chunk_index =
        List.range' ci (chunkDocLoop content source csize cov start ci).length := by
  intro start ci
  induction start, ci using chunkDocLoop.induct content source csize cov with
  | case1 start ci hlt hcc hbrk =>
    rw [chunkDocLoop]
    simp [hlt, hcc, hbrk]
  | case2 start ci hlt hcc hbrk ih =>
    rw [chunkDocLoop]
    simp only [hlt, if_true, hcc, if_pos rfl, hbrk, if_false]
    exact ih
  | case3 start ci hlt hcc ih =>
    rw [chunkDocLoop]
    simp only [hlt, if_true]
    rw [if_neg hcc]
    by_cases hbrk : content.length ≤ chunkDocEnd content csize start
    · rw [if_pos hbrk]
      constructor
      · intro c hc
        rcases List.mem_cons.mp hc with hc | hc
        · subst hc
          unfold mkChunk chunkPiece
          exact ⟨pyStrip_idem _, hcc⟩
        · simp at hc
      · simp [mkChunk, List.range'_succ]
    · rw [if_neg hbrk]
      obtain ⟨ih1, ih2⟩ := ih hbrk
      constructor
      · intro c hc
        rcases List.mem_cons.mp hc with hc | hc
        · subst hc
          unfold mkChunk chunkPiece
          exact ⟨pyStrip_idem _, hcc⟩
        · exact ih1 c hc
      · simp only [List.map_cons, List.length_cons, List.range'_succ]
        rw [ih2]
        simp [mkChunk]
  | case4 start ci hlt =>
    rw [chunkDocLoop]
    simp [hlt]

/-! ### Helper lemmas: the directory walk -/

/-- If every qualifying file before `f` reads successfully and `f` is a
qualifying file whose read fails, the walk raises: the loop result is the
error for `f`, regardless of what follows. -/
theorem ingestDirLoop_error (csize cov : Nat) (f : FSFile) (post : List FSFile)
    (hq : qualifies f = true) (hf : f.content = Except.error ()) :
    ∀ pre acc, (∀ g ∈ pre, ∃ t, g.content = Except.ok t) →
      ingestDirLoop csize cov (pre ++ f :: post) acc = Except.error f.name := by
  intro pre
  induction pre with
  | nil =>
    intro acc _
    simp only [List.nil_append, ingestDirLoop, hq, if_true]
    unfold ingest_file
    rw [hf]
  | cons g pre' ih =>
    intro acc hok
    obtain ⟨t, ht⟩ := hok g (by simp)
    by_cases hg : qualifies g = true
    · simp only [List.cons_append, ingestDirLoop, hg, if_true]
      unfold ingest_file
      rw [ht]
      exact ih _ (fun g' hg' => hok g' (by simp [hg']))
    · simp only [List.cons_append, ingestDirLoop, hg, if_false]
      exact ih _ (fun g' hg' => hok g' (by simp [hg']))

/-! ### Helper lemmas: UTF-8 injectivity -/

theorem char_toNat_lt (c : Char) : c.toNat < 1114112 := by
  have h := c.valid
  show c.val.toNat < 1114112
  rcases h with h | h
  · omega
  · omega

theorem char_toNat_inj {c d : Char} (h : c.toNat = d.toNat) : c = d := by
  have h2 := congrArg Char.ofNat h
  rwa [Char.ofNat_toNat, Char.ofNat_toNat] at h2

theorem utf8Char_ne_nil (c : Char) : utf8Char c ≠ [] := by
  simp only [utf8Char]
  split_ifs <;> simp

theorem utf8Encode_nil : utf8Encode [] = [] := rfl

theorem utf8Encode_cons (c : Char) (l : List Char) :
    utf8Encode (c :: l) = utf8Char c ++ utf8Encode l := by
  simp [utf8Encode]

/-- Decoding the first scalar of an encoded stream recovers the scalar
and the remaining bytes. -/
theorem utf8DecodeOne_utf8Char (c : Char) (rest : List Nat) :
    utf8DecodeOne (utf8Char c ++ rest) = some (c.toNat, rest) := by
  have hlt : c.toNat < 1114112 := char_toNat_lt c
  simp only [utf8Char]
  by_cases h1 : c.toNat < 128
  · rw [if_pos h1]
    unfold utf8DecodeOne
    simp only [List.cons_append, List.nil_append]
    rw [if_pos h1]
  · rw [if_neg h1]
    by_cases h2 : c.toNat < 2048
    · rw [if_pos h2]
      unfold utf8DecodeOne
      simp only [List.cons_append, List.nil_append]
      rw [if_neg (by omega), if_pos (by omega), if_pos (by omega)]
      have hv : (192 + c.toNat / 64 - 192) * 64 + (128 + c.toNat % 64 - 128) =
          c.toNat := by omega
      rw [hv]
    · rw [if_neg h2]
      by_cases h3 : c.toNat < 65536
      · rw [if_pos h3]
        unfold utf8DecodeOne
        simp only [List.cons_append, List.nil_append]
        rw [if_neg (by omega), if_pos (by omega), if_neg (by omega)]
        have hv : (224 + c.toNat / 4096 - 224) * 4096 +
            (128 + c.toNat / 64 % 64 - 128) * 64 + (128 + c.toNat % 64 - 128) =
            c.toNat := by omega
        rw [hv]
      · rw [if_neg h3]
        unfold utf8DecodeOne
        simp only [List.cons_append, List.nil_append]
        rw [if_neg (by omega), if_neg (by omega)]
        have hv : (240 + c.toNat / 262144 - 240) * 262144 +
            (128 + c.toNat / 4096 % 64 - 128) * 4096 +
            (128 + c.toNat / 64 % 64 - 128) * 64 + (128 + c.toNat % 64 - 128) =
            c.toNat := by omega
        rw [hv]

/-- UTF-8 encoding is injective: equal byte encodings come from equal
strings. -/
theorem utf8Encode_injective : ∀ a b : List Char,
    utf8Encode a = utf8Encode b → a = b := by
  intro a
  induction a with
  | nil =>
    intro b h
    cases b with
    | nil => rfl
    | cons d u =>
      rw [utf8Encode_nil, utf8Encode_cons] at h
      exact absurd (List.append_eq_nil.mp h.symm).1 (utf8Char_ne_nil d)
  | cons c t ih =>
    intro b h
    cases b with
    | nil =>
      rw [utf8Encode_nil, utf8Encode_cons] at h
      exact absurd (List.append_eq_nil.mp h).1 (utf8Char_ne_nil c)
    | cons d u =>
      rw [utf8Encode_cons, utf8Encode_cons] at h
      have h2 := congrArg utf8DecodeOne h
      rw [utf8DecodeOne_utf8Char, utf8DecodeOne_utf8Char] at h2
      have h3 := Option.some.inj h2
      have hcd : c = d := char_toNat_inj (congrArg Prod.fst h3)
      have htu : t = u := ih u (congrArg Prod.snd h3)
      rw [hcd, htu]

/-! ### Claim theorems -/

/-- C1 counterexample: at content `""` (with `chunk_size = 1`,
`chunk_overlap = 0`) the word-mode chunker returns the single fallback
chunk `[""]`, so the chunk count 1 exceeds the word count 0: the bound
"number of chunks ≤ number of words" fails for zero-word content. -/
theorem c1_counterexample :
    ¬ ((chunkContent 1 0 "".toList).length ≤ (splitWs "".toList).length) := by
  simp [chunkContent, splitWs_nil, chunkLoop_neg]

/-- C1 (amended): for every content string and every `chunk_size ≥ 1` and
`chunk_overlap ≥ 0`, the word-mode chunker `ContentManager._chunk_content`
terminates (it is a total function here, by the strict increase of `start`
under `start = max(end - chunk_overlap, start + 1)`), and the number of
chunks is at most `max 1 word_count` — the `max 1` accounts for the
single fallback chunk returned for zero-word content. -/
theorem c1_chunk_count_le (content : List Char) (csize cov : Nat)
    (hcs : 1 ≤ csize) :
    (chunkContent csize cov content).length ≤ max 1 (splitWs content).length := by
  unfold chunkContent
  by_cases h : chunkLoop (splitWs content) csize cov 0 = []
  · rw [if_pos h]
    simp
  · rw [if_neg h]
    have hlen := chunkLoop_length (splitWs content) csize cov 0
    omega

/-- C1 witness: the bound at the spec's Scenario 1 configuration. -/
theorem c1_witness :
    (chunkContent 3 1 "a b c d e f g h i j".toList).length ≤
      max 1 (splitWs "a b c d e f g h i j".toList).length :=
  c1_chunk_count_le "a b c d e f g h i j".toList 3 1 (by decide)

/-- C2 counterexample: `ContentManager.calculate_content_hash` hashes the
UNstripped content, so the two strings `"x "` and `"x"` — equal after
`strip()` — receive different digests, refuting the claimed iff for that
function. -/
theorem c2_counterexample :
    pyStrip "x ".toList = pyStrip "x".toList ∧
    calculate_content_hash "x ".toList ≠ calculate_content_hash "x".toList := by
  constructor
  · decide
  · decide

/-- C2 (amended): for `Document._calculate_hash` /
`DocumentChunk._calculate_hash` (which do strip), the byte string fed to
SHA-256 is equal for `A` and `B` iff `A.strip() == B.strip()` (UTF-8
encoding is injective), and stripped-equal inputs receive identical
digests; whitespace-only differences at the ends never change identity
for these hashes. `ContentManager.calculate_content_hash`, by contrast,
hashes the raw content (see the counterexample). -/
theorem c2_hash_iff_strip (A B : List Char) :
    (docHashInput A = docHashInput B ↔ pyStrip A = pyStrip B) ∧
    (pyStrip A = pyStrip B → docCalculateHash A = docCalculateHash B) := by
  constructor
  · constructor
    · intro h
      exact utf8Encode_injective _ _ h
    · intro h
      unfold docHashInput
      rw [h]
  · intro h
    unfold docCalculateHash
    rw [h]

/-- C2 witness: the amended property at the concrete pair
`"x "` and `" x"`. -/
theorem c2_witness :
    (docHashInput "x ".toList = docHashInput " x".toList ↔
      pyStrip "x ".toList = pyStrip " x".toList) ∧
    (pyStrip "x ".toList = pyStrip " x".toList →
      docCalculateHash "x ".toList = docCalculateHash " x".toList) :=
  c2_hash_iff_strip "x ".toList " x".toList

/-- C3 counterexample: a directory holding a readable `a.txt`, an
unreadable `bad.txt` and a readable `c.md` — `ingest_directory` raises
the per-file error instead of continuing: the walk is aborted, no
successes are accumulated and `c.md` is never processed. -/
theorem c3_counterexample :
    ingest_directory 512 50
      [⟨"a.txt".toList, true, ".txt".toList, Except.ok "hello".toList⟩,
       ⟨"bad.txt".toList, true, ".txt".toList, Except.error ()⟩,
       ⟨"c.md".toList, true, ".md".toList, Except.ok "world".toList⟩] =
      Except.error "bad.txt".toList := by
  rfl

/-- C3 (amended): a failure while ingesting one qualifying file ABORTS
the directory walk: `ingest_file`'s `ValueError` propagates out of the
`for` loop (there is no `try/except` in `ingest_directory`), so the whole
call fails with that file's error and no accumulated successes are
returned — files after the failing one are never processed. -/
theorem c3_failure_aborts_walk (csize cov : Nat) (f : FSFile)
    (pre post : List FSFile) (hq : qualifies f = true)
    (hf : f.content = Except.error ())
    (hok : ∀ g ∈ pre, ∃ t, g.content = Except.ok t) :
    ingest_directory csize cov (pre ++ f :: post) = Except.error f.name :=
  ingestDirLoop_error csize cov f post hq hf pre [] hok

/-- C3 witness: the amended behaviour at the concrete three-file
directory. -/
theorem c3_witness :
    ingest_directory 512 50
      ([⟨"a.txt".toList, true, ".txt".toList, Except.ok "hello".toList⟩] ++
        ⟨"bad.txt".toList, true, ".txt".toList, Except.error ()⟩ ::
        [⟨"c.md".toList, true, ".md".toList, Except.ok "world".toList⟩]) =
      Except.error "bad.txt".toList :=
  c3_failure_aborts_walk 512 50 _ _ _ (by decide) rfl
    (by
      intro g hg
      simp only [List.mem_singleton] at hg
      rw [hg]
      exact ⟨_, rfl⟩)

/-- C4: Scenario 1 — content `"a b c d e f g h i j"`, `chunk_size = 3`,
`chunk_overlap = 1` yields exactly
`["a b c", "c d e", "e f g", "g h i", "i j"]`, in order. -/
theorem c4_scenario1 :
    chunkContent 3 1 "a b c d e f g h i j".toList =
      ["a b c".toList, "c d e".toList, "e f g".toList, "g h i".toList,
       "i j".toList] := by
  simp +decide [chunkContent, chunkLoop, splitWs, wordChunk, wordEnd, nextStart,
    joinSp]

/-- C5: `DocumentChunk.create_chunk_id` is exactly the deterministic
composition the spec gives (no randomness, no timestamp — it is a pure
function of `document_source`, `chunk_index`, `content_hash`), and at a
concrete input it produces the literal id with the true
`sha256("test.txt")` prefix. -/
theorem c5_chunk_id_format :
    (∀ (s : List Char) (i : Nat) (h : List Char),
      create_chunk_id s i h = specChunkId s i h) ∧
    create_chunk_id "test.txt".toList 3 "deadbeefcafe".toList =
      "chunk_a6ed0c78_0003_deadbeef".toList := by
  constructor
  · intro s i h
    simp [create_chunk_id, specChunkId, sha256Hex, pyFormat04d, zeroPad]
  · decide

/-- C6 counterexample: an ingestion call with `chunk_size = 0` does NOT
fail — no `InvalidChunkConfig` exists anywhere in the code; chunking
proceeds and returns one empty chunk per word position. -/
theorem c6_counterexample :
    ingest_file 0 50 ⟨"a.txt".toList, true, ".txt".toList,
      Except.ok "a b".toList⟩ =
    Except.ok [("a.txt".toList, []), ("a.txt".toList, [])] := by
  simp +decide [ingest_file, chunkContent, chunkLoop, splitWs, wordChunk,
    wordEnd, nextStart, joinSp]

/-- C6 (amended): `chunk_size ≤ 0` is not validated anywhere
(`ContentManager.__init__` stores it unchecked); with `chunk_size = 0`
ingestion proceeds and the word-mode chunker still terminates, emitting
one empty chunk per word of the content instead of failing. -/
theorem c6_zero_chunk_size (cov : Nat) (content : List Char)
    (h : splitWs content ≠ []) :
    chunkContent 0 cov content = List.replicate (splitWs content).length [] := by
  unfold chunkContent
  have hz := chunkLoop_zero_size (splitWs content) cov 0
  rw [Nat.sub_zero] at hz
  rw [hz]
  have hlen : 0 < (splitWs content).length := List.length_pos.mpr h
  rw [if_neg]
  intro hx
  have hlen2 := congrArg List.length hx
  simp only [List.length_replicate, List.length_nil] at hlen2
  omega

/-- C6 witness: the amended behaviour at content `"a b"`,
`chunk_overlap = 50`. -/
theorem c6_witness :
    chunkContent 0 50 "a b".toList =
      List.replicate (splitWs "a b".toList).length [] :=
  c6_zero_chunk_size 50 "a b".toList (by simp +decide [splitWs])

/-- C7: content that splits into zero words (empty or whitespace-only)
yields exactly one chunk equal to the original content — never an empty
sequence. -/
theorem c7_zero_words (csize cov : Nat) (content : List Char)
    (h : splitWs content = []) :
    chunkContent csize cov content = [content] := by
  unfold chunkContent
  rw [h, chunkLoop_neg _ _ _ _ (by simp)]
  simp

/-- C7 witness: Scenario 2 — content `""` yields `[""]` under the default
configuration. -/
theorem c7_witness :
    splitWs "".toList = [] ∧ chunkContent 512 50 "".toList = ["".toList] :=
  ⟨by simp +decide [splitWs], c7_zero_words 512 50 "".toList
    (by simp +decide [splitWs])⟩

/-- C8 counterexample: content `"a  b"` (double internal space) has 2
words, fewer than `chunk_size = 10`, but the single chunk is the
single-space join `"a b"`, which differs from the stripped content
`"a  b"` — the chunker normalizes internal whitespace, so "one chunk
equal to the stripped content" fails. -/
theorem c8_counterexample :
    chunkContent 10 2 "a  b".toList = ["a b".toList] ∧
    pyStrip "a  b".toList = "a  b".toList ∧
    "a b".toList ≠ "a  b".toList := by
  refine ⟨?_, by decide, by decide⟩
  simp +decide [chunkContent, chunkLoop, splitWs, wordChunk, wordEnd, nextStart,
    joinSp]

/-- C8 (amended): content with at least one word and fewer than
`chunk_size` words yields exactly one chunk, equal to the content's words
joined by single spaces (`" ".join(content.split())`) — this equals the
stripped content exactly when the internal whitespace of the content is
already single spaces. -/
theorem c8_short_content (csize cov : Nat) (content : List Char)
    (h1 : splitWs content ≠ []) (h2 : (splitWs content).length < csize) :
    chunkContent csize cov content = [joinSp (splitWs content)] := by
  unfold chunkContent
  have hlen : 0 < (splitWs content).length := List.length_pos.mpr h1
  rw [if_neg (chunkLoop_ne_nil (splitWs content) csize cov 0 hlen)]
  rw [chunkLoop]
  have he : wordEnd (splitWs content) csize 0 = (splitWs content).length := by
    simp only [wordEnd, Nat.zero_add]
    omega
  simp only [hlen, if_true, he, le_refl, if_pos]
  simp [wordChunk]

/-- C8 witness: the amended property at content `"hello world"`,
`chunk_size = 10`, `chunk_overlap = 2`. -/
theorem c8_witness :
    chunkContent 10 2 "hello world".toList =
      [joinSp (splitWs "hello world".toList)] :=
  c8_short_content 10 2 "hello world".toList (by simp +decide [splitWs])
    (by simp +decide [splitWs])

/-- C9: in `VectorStore._chunk_document` every emitted chunk is trimmed
(stripping its content again changes nothing) and non-empty (empty
post-trim chunks are dropped without consuming an index), and the emitted
`chunk_index` values are exactly `0, 1, 2, ...` — strictly increasing
with no gaps. The backward word-boundary search (at most 50 characters,
snapping only when the snapped end exceeds `start`) is embedded in
`chunkDocEnd`. -/
theorem c9_char_chunks (source content : List Char) (csize cov : Nat) :
    (∀ c ∈ chunkDocument source content csize cov,
      pyStrip c.content = c.content ∧ c.content ≠ []) ∧
    (chunkDocument source content csize cov).map Chunk.chunk_index =
      List.range (chunkDocument source content csize cov).length := by
  obtain ⟨h1, h2⟩ := chunkDocLoop_spec content source csize cov 0 0
  refine ⟨h1, ?_⟩
  rw [List.range_eq_range']
  exact h2

/-- C10: implicit word-coverage invariant — for `chunk_size ≥ 1` every
word of `content.split()` occurs, as a word, in at least one emitted
chunk of the word-mode chunker, even when `chunk_overlap ≥ chunk_size`. -/
theorem c10_word_coverage (content : List Char) (csize cov : Nat)
    (hcs : 1 ≤ csize) :
    ∀ w ∈ splitWs content,
      ∃ c ∈ chunkContent csize cov content, w ∈ splitWs c := by
  intro w hwmem
  obtain ⟨i, hi⟩ := List.mem_iff_getElem?.mp hwmem
  obtain ⟨c, hc, hwc⟩ :=
    chunkLoop_covers (splitWs content) csize cov hcs (mem_splitWs content) 0
      i w hi (Nat.zero_le i)
  refine ⟨c, ?_, hwc⟩
  unfold chunkContent
  rw [if_neg]
  · exact hc
  · intro hnil
    rw [hnil] at hc
    simp at hc

/-- C10 witness: the word `"e"` of Scenario 1's content occurs in one of
its chunks (`chunk_overlap = 5 > chunk_size = 2`, the degenerate
configuration). -/
theorem c10_witness :
    ∃ c ∈ chunkContent 2 5 "a b c d e f g h i j".toList,
      "e".toList ∈ splitWs c :=
  c10_word_coverage "a b c d e f g h i j".toList 2 5 (by decide)
    "e".toList (by simp +decide [splitWs])
